import Mathlib

/-!
Shallow embedding of the HELM CLI glue in `src/src/lib.rs`: the plaintext
value type `PtxtType` with its string parser, the ciphertext wrapper
`FheType` with `decrypt`, the input-wire-map construction
`get_input_wire_map`, and the `cycles` command-line argument.  Rust panics
(`unwrap`, `unreachable!`, out-of-bounds indexing, decrypting a `None`
ciphertext) are modelled as `Option.none`; machine integers are `Nat`
values with explicit bounds enforced at the parsing boundary, exactly as
Rust's checked `FromStr` parsers do.
-/

namespace Helm

/-- The error type of `PtxtType`'s string parser (src/src/lib.rs lines 14-18). -/
inductive PtxtError where
  | InvalidInput
  deriving DecidableEq

/-- Plaintext values (src/src/lib.rs lines 20-29).  The `uN` payloads are
`Nat`s; every constructor application produced by the embedded parsers
carries a value within the corresponding width's range, because Rust's
`FromStr` for unsigned integers rejects out-of-range tokens rather than
truncating. -/
inductive PtxtType where
  | Bool (b : Bool)
  | U8 (v : Nat)
  | U16 (v : Nat)
  | U32 (v : Nat)
  | U64 (v : Nat)
  | U128 (v : Nat)
  | None
  deriving DecidableEq

/-- The tfhe client key.  The key material itself is opaque to this
repository (spec §6: the encryption boundary is an external library), so it
is modelled as a unit-like token. -/
structure ClientKey where
  deriving DecidableEq

/-- Ciphertext values (src/src/lib.rs lines 31-39).  A `FheUintN`
ciphertext is modelled by the plaintext value it decrypts to under the
run's client key, which is faithful to the spec's encryption boundary
(§6: decryption gives a "deterministic plaintext-equivalent result").
Note there is no boolean variant: boolean-mode ciphertexts live in a
different type outside this file's source. -/
inductive FheType where
  | U8 (ct : Nat)
  | U16 (ct : Nat)
  | U32 (ct : Nat)
  | U64 (ct : Nat)
  | U128 (ct : Nat)
  | None
  deriving DecidableEq

/-- Strip one leading '+' sign, as Rust's unsigned-integer `FromStr` accepts. -/
def stripPlus (cs : List Char) : List Char :=
  match cs with
  | '+' :: rest => rest
  | cs => cs

/-- Numeric value of a list of decimal digit characters. -/
def digitsVal (cs : List Char) : Nat :=
  cs.foldl (fun a c => a * 10 + (c.toNat - 48)) 0

/-- A string is a well-formed unsigned-integer token for Rust's `FromStr`
when, after an optional leading '+', it is a nonempty run of decimal
digits. -/
def wellFormedUInt (s : String) : Bool :=
  let ds := stripPlus s.data
  !ds.isEmpty && ds.all Char.isDigit

/-- The numeric value of an unsigned-integer token. -/
def uintVal (s : String) : Nat :=
  digitsVal (stripPlus s.data)

/-- Rust's `uN::from_str` for an unsigned width whose maximum value is
`maxVal`: succeeds exactly on well-formed digit tokens whose value fits,
and fails (InvalidDigit or PosOverflow, both collapsed to `none`)
otherwise.  No truncation ever happens. -/
def rustParseUInt (maxVal : Nat) (s : String) : Option Nat :=
  if wellFormedUInt s ∧ uintVal s ≤ maxVal then some (uintVal s) else none

/-- Rust's `bool::from_str`: accepts exactly "true" and "false". -/
def rustParseBool (s : String) : Option Bool :=
  if s = "true" then some true
  else if s = "false" then some false
  else none

/-- `impl FromStr for PtxtType` (src/src/lib.rs lines 41-61): "None" maps
to `PtxtType::None`; otherwise the parsers for u8, u16, u32, u64, u128 are
tried in that order; if none succeeds the result is
`Err(PtxtError::InvalidInput)`. -/
def PtxtType.fromStr (s : String) : Except PtxtError PtxtType :=
  if s = "None" then .ok .None
  else
    match rustParseUInt (2 ^ 8 - 1) s with
    | some v => .ok (.U8 v)
    | none =>
      match rustParseUInt (2 ^ 16 - 1) s with
      | some v => .ok (.U16 v)
      | none =>
        match rustParseUInt (2 ^ 32 - 1) s with
        | some v => .ok (.U32 v)
        | none =>
          match rustParseUInt (2 ^ 64 - 1) s with
          | some v => .ok (.U64 v)
          | none =>
            match rustParseUInt (2 ^ 128 - 1) s with
            | some v => .ok (.U128 v)
            | none => .error .InvalidInput

/-- `FheType::decrypt` (src/src/lib.rs lines 77-88): each ciphertext width
variant decrypts to the `PtxtType` variant of the same width; the `None`
variant panics ("Decrypt found a None value"), modelled as `none`. -/
def FheType.decrypt (c : FheType) (key : ClientKey) : Option PtxtType :=
  match c, key with
  | .U8 v, _ => some (.U8 v)
  | .U16 v, _ => some (.U16 v)
  | .U32 v, _ => some (.U32 v)
  | .U64 v, _ => some (.U64 v)
  | .U128 v, _ => some (.U128 v)
  | .None, _ => none

/-- One entry of the explicit wire-input list, as handled by the closure
inside `get_input_wire_map` (src/src/lib.rs lines 118-134): the value
token `parts[1]` is parsed according to `arithmetic_type` ("bool" maps
"1" to true and otherwise falls back to `parse::<bool>().unwrap_or(false)`;
the arithmetic modes `unwrap` the width's integer parser, panicking on a
malformed token; any other mode string hits `unreachable!`), and the
result is paired with the wire name `parts[0]`. -/
def parseEntry (arithmetic_type : String) (parts : List String) :
    Option (String × PtxtType) :=
  (if arithmetic_type = "bool" then
      (parts[1]?).map (fun s =>
        PtxtType.Bool (if s = "1" then true else (rustParseBool s).getD false))
    else if arithmetic_type = "u8" then
      (parts[1]?).bind (fun s => (rustParseUInt (2 ^ 8 - 1) s).map PtxtType.U8)
    else if arithmetic_type = "u16" then
      (parts[1]?).bind (fun s => (rustParseUInt (2 ^ 16 - 1) s).map PtxtType.U16)
    else if arithmetic_type = "u32" then
      (parts[1]?).bind (fun s => (rustParseUInt (2 ^ 32 - 1) s).map PtxtType.U32)
    else if arithmetic_type = "u64" then
      (parts[1]?).bind (fun s => (rustParseUInt (2 ^ 64 - 1) s).map PtxtType.U64)
    else if arithmetic_type = "u128" then
      (parts[1]?).bind (fun s => (rustParseUInt (2 ^ 128 - 1) s).map PtxtType.U128)
    else none).bind
    (fun ptxt => (parts[0]?).map (fun p0 => (p0, ptxt)))

/-- Map `parseEntry` across the wire-input list; a panic on any entry
aborts the whole construction, as in the Rust iterator pipeline. -/
def mapEntries (arithmetic_type : String) :
    List (List String) → Option (List (String × PtxtType))
  | [] => some []
  | parts :: rest => do
    let e ← parseEntry arithmetic_type parts
    let es ← mapEntries arithmetic_type rest
    pure (e :: es)

/-- `std::collections::HashMap` insertion, modelled on an association
list observed only through `hmLookup`: inserting an existing key replaces
its value, inserting a fresh key appends it. -/
def hmInsert (m : List (String × PtxtType)) (k : String) (v : PtxtType) :
    List (String × PtxtType) :=
  m.filter (fun p => p.1 ≠ k) ++ [(k, v)]

/-- `HashMap::get`, on the association-list model. -/
def hmLookup (k : String) : List (String × PtxtType) → Option PtxtType
  | [] => none
  | p :: rest => if p.1 = k then some p.2 else hmLookup k rest

/-- `collect::<HashMap<_, _>>()`: left-to-right insertion, so for a
repeated key the last pair wins. -/
def hmCollect (l : List (String × PtxtType)) : List (String × PtxtType) :=
  l.foldl (fun m p => hmInsert m p.1 p.2) []

/-- The value attached to the last pair of `l` whose key is `k`, if any. -/
def lastVal (k : String) : List (String × PtxtType) → Option PtxtType
  | [] => none
  | p :: rest =>
    match lastVal k rest with
    | some v => some v
    | none => if p.1 = k then some p.2 else none

/-- `get_input_wire_map` (src/src/lib.rs lines 95-145).  The first branch
delegates to `verilog_parser::read_input_wires`, whose code is outside
src/; it is passed in as the parameter `readInputWires`.  With no file, a
non-empty explicit list is parsed entry by entry and collected into a
hash map (a panic anywhere aborts, giving `none`); an empty list yields
the empty map. -/
def get_input_wire_map (readInputWires : String → String → List (String × PtxtType))
    (inputs_filename : Option String) (wire_inputs : List (List String))
    (arithmetic_type : String) : Option (List (String × PtxtType)) :=
  match inputs_filename with
  | some wireFileName => some (readInputWires wireFileName arithmetic_type)
  | none =>
    if !wire_inputs.isEmpty then
      (mapEntries arithmetic_type wire_inputs).map hmCollect
    else
      some []

/-- The mode strings for which `get_input_wire_map`'s match has an arm. -/
def validArithType (t : String) : Bool :=
  t = "bool" || t = "u8" || t = "u16" || t = "u32" || t = "u64" || t = "u128"

/-- Whether a value token parses without panicking in mode `t`: boolean
mode never panics (it has a fallback), each arithmetic mode requires the
token to parse at its exact width, and any other mode always panics. -/
def tokenOk (t : String) (s : String) : Bool :=
  if t = "bool" then true
  else if t = "u8" then (rustParseUInt (2 ^ 8 - 1) s).isSome
  else if t = "u16" then (rustParseUInt (2 ^ 16 - 1) s).isSome
  else if t = "u32" then (rustParseUInt (2 ^ 32 - 1) s).isSome
  else if t = "u64" then (rustParseUInt (2 ^ 64 - 1) s).isSome
  else if t = "u128" then (rustParseUInt (2 ^ 128 - 1) s).isSome
  else false

/-- Modelled from the spec and the clap declaration of the "cycles"
argument in `parse_args` (src/src/lib.rs lines 204-213): clap's parsing
machinery is external to the repository; the argument is declared with
`default_value("1")` and `value_parser!(usize)`, so an absent argument
yields 1 and a supplied token is parsed as a usize (64-bit unsigned) with
no further restriction. -/
def cyclesArgValue (provided : Option String) : Option Nat :=
  rustParseUInt (2 ^ 64 - 1) (provided.getD "1")

/-- The `PtxtType` variant of the narrowest width able to hold `v`.  This
follows the spec's reading of `PtxtType::from_str`'s cascade, for
comparison with the parser embedded from the source. -/
def narrowestWidthVariant (v : Nat) : PtxtType :=
  if v < 2 ^ 8 then .U8 v
  else if v < 2 ^ 16 then .U16 v
  else if v < 2 ^ 32 then .U32 v
  else if v < 2 ^ 64 then .U64 v
  else .U128 v

/-- Whether a plaintext value is one of the arithmetic (unsigned-integer)
variants, the ones `FheType` can represent. -/
def ptxtIsArith : PtxtType → Bool
  | .U8 _ | .U16 _ | .U32 _ | .U64 _ | .U128 _ => true
  | _ => false

/-- Modelled from the spec: encryption of a plaintext input (spec §6, the
encryption boundary; the call sites live outside src/).  An arithmetic
plaintext becomes the ciphertext of the same width that decrypts back to
it under the same key; boolean and `None` plaintexts have no `FheType`
counterpart. -/
def encrypt (key : ClientKey) : PtxtType → Option FheType :=
  fun p =>
    match p, key with
    | .U8 v, _ => some (.U8 v)
    | .U16 v, _ => some (.U16 v)
    | .U32 v, _ => some (.U32 v)
    | .U64 v, _ => some (.U64 v)
    | .U128 v, _ => some (.U128 v)
    | _, _ => none

/-- Modelled from the spec: the arithmetic gate operations of §4.1
(addition, subtraction, multiplication and the bitwise logic operations
the netlist may use).  The circuit/evaluator code itself is outside src/. -/
inductive GateOp where
  | add
  | sub
  | mul
  | band
  | bor
  | bxor
  deriving DecidableEq

/-- The operation of a gate on width-`w` unsigned integers, with the
wrap-around semantics of fixed-width machine arithmetic (`% 2 ^ w`). -/
def opFun (w : Nat) : GateOp → Nat → Nat → Nat
  | .add, a, b => (a + b) % 2 ^ w
  | .sub, a, b => (a + (2 ^ w - b % 2 ^ w)) % 2 ^ w
  | .mul, a, b => a * b % 2 ^ w
  | .band, a, b => a.land b % 2 ^ w
  | .bor, a, b => a.lor b % 2 ^ w
  | .bxor, a, b => a.xor b % 2 ^ w

/-- Modelled from the spec: a gate operation on plaintext values.  Widths
must match exactly (§4.1: a width mismatch is a type-mismatch fault, and
applying an operation to a `None` value is an uninitialized-wire fault);
faults are `none`. -/
def ptxtOp (op : GateOp) : PtxtType → PtxtType → Option PtxtType
  | .U8 a, .U8 b => some (.U8 (opFun 8 op a b))
  | .U16 a, .U16 b => some (.U16 (opFun 16 op a b))
  | .U32 a, .U32 b => some (.U32 (opFun 32 op a b))
  | .U64 a, .U64 b => some (.U64 (opFun 64 op a b))
  | .U128 a, .U128 b => some (.U128 (opFun 128 op a b))
  | _, _ => none

/-- Modelled from the spec: the same gate operation performed
homomorphically on ciphertexts (§4.1: "every operation must be defined
identically whether operands are plaintext or encrypted"; §6: the library
produces the deterministic plaintext-equivalent result). -/
def fheOp (op : GateOp) : FheType → FheType → Option FheType
  | .U8 a, .U8 b => some (.U8 (opFun 8 op a b))
  | .U16 a, .U16 b => some (.U16 (opFun 16 op a b))
  | .U32 a, .U32 b => some (.U32 (opFun 32 op a b))
  | .U64 a, .U64 b => some (.U64 (opFun 64 op a b))
  | .U128 a, .U128 b => some (.U128 (opFun 128 op a b))
  | _, _ => none

/-- Modelled from the spec: a two-input arithmetic gate of the netlist
(§3), reading wires `in1` and `in2` and writing wire `out`. -/
structure Gate where
  op : GateOp
  in1 : String
  in2 : String
  out : String

/-- Modelled from the spec: plaintext ("shadow") evaluation of a gate
list against a wire-value store (§4.4), each gate reading already-resolved
wires and writing its output; reading an absent wire or a fault in the
operation aborts the pass. -/
def evalGatesP : List Gate → (String → Option PtxtType) →
    Option (String → Option PtxtType)
  | [], st => some st
  | g :: rest, st => do
    let a ← st g.in1
    let b ← st g.in2
    let v ← ptxtOp g.op a b
    evalGatesP rest (fun n => if n = g.out then some v else st n)

/-- Modelled from the spec: the same evaluation performed over
ciphertexts. -/
def evalGatesF : List Gate → (String → Option FheType) →
    Option (String → Option FheType)
  | [], st => some st
  | g :: rest, st => do
    let a ← st g.in1
    let b ← st g.in2
    let v ← fheOp g.op a b
    evalGatesF rest (fun n => if n = g.out then some v else st n)

/-- Encrypt every supplied input wire of a plaintext store. -/
def encryptStore (key : ClientKey) (inputs : String → Option PtxtType) :
    String → Option FheType :=
  fun n => (inputs n).bind (encrypt key)

/-- Pointwise simulation between a ciphertext store and a plaintext
store: present on the same wires, and present ciphertexts decrypt to the
plaintext value. -/
def StoreSim (key : ClientKey) (stF : String → Option FheType)
    (stP : String → Option PtxtType) : Prop :=
  ∀ n, match stF n, stP n with
    | some c, some p => c.decrypt key = some p
    | none, none => True
    | _, _ => False

/-- A trivial stand-in for `verilog_parser::read_input_wires`, used where
a concrete witness needs some value for `get_input_wire_map`'s
file-reading parameter on a run that supplies no input file. -/
def dummyRead : String → String → List (String × PtxtType) :=
  fun _ _ => []

/-- Concrete one-gate circuit for witnesses: an 8-bit adder (spec §8,
scenario 3). -/
def exGates : List Gate :=
  [{ op := .add, in1 := "a", in2 := "b", out := "c" }]

/-- Concrete inputs for `exGates`: a = 200, b = 100 as u8 (spec §8,
scenario 3: the sum wraps to 44). -/
def exInputs : String → Option PtxtType :=
  fun n => if n = "a" then some (.U8 200) else if n = "b" then some (.U8 100) else none

/-! ## Lemmas about the Rust integer parsers -/

theorem rustParseUInt_eq_some (m : Nat) (s : String) (v : Nat) :
    rustParseUInt m s = some v ↔
      wellFormedUInt s = true ∧ uintVal s = v ∧ v ≤ m := by
  unfold rustParseUInt
  split_ifs with h
  · simp only [Option.some.injEq]
    constructor
    · rintro rfl
      exact ⟨h.1, rfl, h.2⟩
    · rintro ⟨_, rfl, _⟩
      rfl
  · simp only [false_iff, reduceCtorEq]
    rintro ⟨hwf, rfl, hle⟩
    exact h ⟨hwf, hle⟩

theorem rustParseUInt_mono (m1 m2 : Nat) (s : String) (v : Nat)
    (h : rustParseUInt m1 s = some v) (hle : v ≤ m2) :
    rustParseUInt m2 s = some v := by
  rcases (rustParseUInt_eq_some m1 s v).1 h with ⟨hwf, hval, _⟩
  exact (rustParseUInt_eq_some m2 s v).2 ⟨hwf, hval, hle⟩

theorem rustParseUInt_none_str (m : Nat) : rustParseUInt m "None" = none := by
  unfold rustParseUInt
  rw [if_neg]
  rintro ⟨hwf, _⟩
  exact absurd hwf (by decide)

theorem narrowestWidthVariant_not_none_or_bool (v : Nat) :
    narrowestWidthVariant v ≠ .None ∧ ∀ b : Bool, narrowestWidthVariant v ≠ .Bool b := by
  unfold narrowestWidthVariant
  split_ifs <;> simp

/-- The source's `from_str` cascade returns the narrowest width that can
hold any token parseable as a u128. -/
theorem fromStr_narrowest (s : String) (v : Nat)
    (h : rustParseUInt (2 ^ 128 - 1) s = some v) :
    PtxtType.fromStr s = .ok (narrowestWidthVariant v) := by
  rcases (rustParseUInt_eq_some _ s v).1 h with ⟨hwf, hval, hle⟩
  have hs : s ≠ "None" := by
    intro e
    rw [e] at h
    rw [rustParseUInt_none_str] at h
    cases h
  have e8 : (2 : Nat) ^ 8 = 256 := by norm_num
  have e16 : (2 : Nat) ^ 16 = 65536 := by norm_num
  have e32 : (2 : Nat) ^ 32 = 4294967296 := by norm_num
  have e64 : (2 : Nat) ^ 64 = 18446744073709551616 := by norm_num
  unfold PtxtType.fromStr
  rw [if_neg hs]
  by_cases h8 : v ≤ 2 ^ 8 - 1
  · rw [(rustParseUInt_eq_some _ s v).2 ⟨hwf, hval, h8⟩]
    unfold narrowestWidthVariant
    rw [if_pos (by omega)]
  · rw [show rustParseUInt (2 ^ 8 - 1) s = none from by
      unfold rustParseUInt
      rw [if_neg]
      rintro ⟨_, hv⟩
      rw [hval] at hv
      exact h8 hv]
    by_cases h16 : v ≤ 2 ^ 16 - 1
    · rw [(rustParseUInt_eq_some _ s v).2 ⟨hwf, hval, h16⟩]
      unfold narrowestWidthVariant
      rw [if_neg (by omega), if_pos (by omega)]
    · rw [show rustParseUInt (2 ^ 16 - 1) s = none from by
        unfold rustParseUInt
        rw [if_neg]
        rintro ⟨_, hv⟩
        rw [hval] at hv
        exact h16 hv]
      by_cases h32 : v ≤ 2 ^ 32 - 1
      · rw [(rustParseUInt_eq_some _ s v).2 ⟨hwf, hval, h32⟩]
        unfold narrowestWidthVariant
        rw [if_neg (by omega), if_neg (by omega), if_pos (by omega)]
      · rw [show rustParseUInt (2 ^ 32 - 1) s = none from by
          unfold rustParseUInt
          rw [if_neg]
          rintro ⟨_, hv⟩
          rw [hval] at hv
          exact h32 hv]
        by_cases h64 : v ≤ 2 ^ 64 - 1
        · rw [(rustParseUInt_eq_some _ s v).2 ⟨hwf, hval, h64⟩]
          unfold narrowestWidthVariant
          rw [if_neg (by omega), if_neg (by omega), if_neg (by omega), if_pos (by omega)]
        · rw [show rustParseUInt (2 ^ 64 - 1) s = none from by
            unfold rustParseUInt
            rw [if_neg]
            rintro ⟨_, hv⟩
            rw [hval] at hv
            exact h64 hv]
          rw [h]
          unfold narrowestWidthVariant
          rw [if_neg (by omega), if_neg (by omega), if_neg (by omega), if_neg (by omega)]

/-- Claim C8: `PtxtType::from_str` returns `Ok(None)` exactly on the
string "None"; it never returns a `Bool` variant; it returns
`Err(InvalidInput)` exactly when the token is neither "None" nor
parseable as a u128; and on any token parseable as a u128 it returns the
numeric variant of the narrowest width that can represent it (u8 before
u16 before u32 before u64 before u128). -/
theorem fromStr_characterization (s : String) :
    (PtxtType.fromStr s = .ok .None ↔ s = "None")
    ∧ (∀ b : Bool, PtxtType.fromStr s ≠ .ok (.Bool b))
    ∧ (PtxtType.fromStr s = .error .InvalidInput ↔
        s ≠ "None" ∧ rustParseUInt (2 ^ 128 - 1) s = none)
    ∧ (∀ v : Nat, rustParseUInt (2 ^ 128 - 1) s = some v →
        PtxtType.fromStr s = .ok (narrowestWidthVariant v)) := by
  by_cases hs : s = "None"
  · subst hs
    refine ⟨by simp [PtxtType.fromStr], ?_, ?_, ?_⟩
    · intro b
      simp [PtxtType.fromStr]
    · simp [PtxtType.fromStr]
    · intro v hv
      exact absurd ((rustParseUInt_none_str _).symm.trans hv) (by simp)
  · cases hbig : rustParseUInt (2 ^ 128 - 1) s with
    | some v =>
      have hfs := fromStr_narrowest s v hbig
      refine ⟨?_, ?_, ?_, ?_⟩
      · rw [hfs]
        simp only [Except.ok.injEq]
        constructor
        · intro h
          exact absurd h (narrowestWidthVariant_not_none_or_bool v).1
        · intro h
          exact absurd h hs
      · intro b h
        rw [hfs] at h
        exact absurd (Except.ok.inj h) ((narrowestWidthVariant_not_none_or_bool v).2 b)
      · constructor
        · intro h
          rw [hfs] at h
          exact absurd h (by simp)
        · rintro ⟨_, h⟩
          exact absurd h (by simp)
      · intro v' hv'
        rw [Option.some.injEq] at hv'
        subst hv'
        exact hfs
    | none =>
      have small : ∀ m : Nat, m ≤ 2 ^ 128 - 1 → rustParseUInt m s = none := by
        intro m hm
        cases hh : rustParseUInt m s with
        | none => rfl
        | some v =>
          rcases (rustParseUInt_eq_some m s v).1 hh with ⟨hwf, hval, hle⟩
          rw [rustParseUInt_mono m (2 ^ 128 - 1) s v hh (le_trans hle hm)] at hbig
          cases hbig
      have herr : PtxtType.fromStr s = .error .InvalidInput := by
        unfold PtxtType.fromStr
        rw [if_neg hs, small (2 ^ 8 - 1) (by decide),
          small (2 ^ 16 - 1) (by decide), small (2 ^ 32 - 1) (by decide),
          small (2 ^ 64 - 1) (by decide), hbig]
      refine ⟨?_, ?_, ?_, ?_⟩
      · rw [herr]
        simp only [reduceCtorEq, false_iff]
        exact hs
      · intro b
        rw [herr]
        simp
      · exact ⟨fun _ => ⟨hs, rfl⟩, fun _ => herr⟩
      · intro v hv
        exact absurd hv (by simp)

/-- Witness for `fromStr_characterization`: the token "300" parses as a
u128 with value 300, and the cascade yields the narrowest fitting width,
`U16 300`. -/
theorem fromStr_characterization_witness :
    rustParseUInt (2 ^ 128 - 1) "300" = some 300
    ∧ PtxtType.fromStr "300" = .ok (narrowestWidthVariant 300)
    ∧ narrowestWidthVariant 300 = .U16 300 :=
  ⟨by decide, (fromStr_characterization "300").2.2.2 300 (by decide), by decide⟩

/-! ## Equations for `parseEntry` at each mode string -/

theorem parseEntry_bool (name token : String) :
    parseEntry "bool" [name, token] =
      some (name, PtxtType.Bool
        (if token = "1" then true else (rustParseBool token).getD false)) := by
  unfold parseEntry
  rw [if_pos rfl]
  rfl

theorem parseEntry_u8 (name token : String) :
    parseEntry "u8" [name, token] =
      (rustParseUInt (2 ^ 8 - 1) token).map (fun v => (name, PtxtType.U8 v)) := by
  unfold parseEntry
  rw [if_neg (by decide), if_pos rfl]
  cases h : rustParseUInt (2 ^ 8 - 1) token <;> (norm_num at h ⊢; simp [h])

theorem parseEntry_u16 (name token : String) :
    parseEntry "u16" [name, token] =
      (rustParseUInt (2 ^ 16 - 1) token).map (fun v => (name, PtxtType.U16 v)) := by
  unfold parseEntry
  rw [if_neg (by decide), if_neg (by decide), if_pos rfl]
  cases h : rustParseUInt (2 ^ 16 - 1) token <;> (norm_num at h ⊢; simp [h])

theorem parseEntry_u32 (name token : String) :
    parseEntry "u32" [name, token] =
      (rustParseUInt (2 ^ 32 - 1) token).map (fun v => (name, PtxtType.U32 v)) := by
  unfold parseEntry
  rw [if_neg (by decide), if_neg (by decide), if_neg (by decide), if_pos rfl]
  cases h : rustParseUInt (2 ^ 32 - 1) token <;> (norm_num at h ⊢; simp [h])

theorem parseEntry_u64 (name token : String) :
    parseEntry "u64" [name, token] =
      (rustParseUInt (2 ^ 64 - 1) token).map (fun v => (name, PtxtType.U64 v)) := by
  unfold parseEntry
  rw [if_neg (by decide), if_neg (by decide), if_neg (by decide), if_neg (by decide),
    if_pos rfl]
  cases h : rustParseUInt (2 ^ 64 - 1) token <;> (norm_num at h ⊢; simp [h])

theorem parseEntry_u128 (name token : String) :
    parseEntry "u128" [name, token] =
      (rustParseUInt (2 ^ 128 - 1) token).map (fun v => (name, PtxtType.U128 v)) := by
  unfold parseEntry
  rw [if_neg (by decide), if_neg (by decide), if_neg (by decide), if_neg (by decide),
    if_neg (by decide), if_pos rfl]
  cases h : rustParseUInt (2 ^ 128 - 1) token <;> (norm_num at h ⊢; simp [h])

theorem parseEntry_invalid (t : String) (parts : List String)
    (h : validArithType t = false) :
    parseEntry t parts = none := by
  unfold validArithType at h
  simp only [Bool.or_eq_false_iff, decide_eq_false_iff_not] at h
  obtain ⟨⟨⟨⟨⟨h1, h2⟩, h3⟩, h4⟩, h5⟩, h6⟩ := h
  unfold parseEntry
  rw [if_neg h1, if_neg h2, if_neg h3, if_neg h4, if_neg h5, if_neg h6]
  rfl

theorem parseEntry_isSome (t name token : String) (rest : List String)
    (htok : tokenOk t token = true) :
    (parseEntry t (name :: token :: rest)).isSome = true := by
  unfold tokenOk at htok
  unfold parseEntry
  split_ifs at htok ⊢ with h1 h2 h3 h4 h5 h6
  · simp
  · norm_num at htok
    rw [Option.isSome_iff_exists] at htok
    obtain ⟨v, hv⟩ := htok
    simp [hv]
  · norm_num at htok
    rw [Option.isSome_iff_exists] at htok
    obtain ⟨v, hv⟩ := htok
    simp [hv]
  · norm_num at htok
    rw [Option.isSome_iff_exists] at htok
    obtain ⟨v, hv⟩ := htok
    simp [hv]
  · norm_num at htok
    rw [Option.isSome_iff_exists] at htok
    obtain ⟨v, hv⟩ := htok
    simp [hv]
  · norm_num at htok
    rw [Option.isSome_iff_exists] at htok
    obtain ⟨v, hv⟩ := htok
    simp [hv]

theorem mapEntries_isSome (t : String) (wi : List (List String))
    (h : ∀ parts ∈ wi, (parseEntry t parts).isSome = true) :
    (mapEntries t wi).isSome = true := by
  induction wi with
  | nil => rfl
  | cons p rest ih =>
    have hp := h p (List.mem_cons_self p rest)
    rw [Option.isSome_iff_exists] at hp
    obtain ⟨e, he⟩ := hp
    have hr := ih (fun q hq => h q (List.mem_cons_of_mem _ hq))
    rw [Option.isSome_iff_exists] at hr
    obtain ⟨es, hes⟩ := hr
    simp [mapEntries, he, hes]

theorem giwm_cons (r : String → String → List (String × PtxtType))
    (p : List String) (wi : List (List String)) (t : String) :
    get_input_wire_map r none (p :: wi) t =
      (mapEntries t (p :: wi)).map hmCollect := by
  unfold get_input_wire_map
  rfl

/-- Claim C2 counterexample: in arithmetic mode "u8" the malformed value
token "abc" does not fall back to a default of 0; the `unwrap` panics and
the whole run aborts (`none`), contradicting the claim that the fallback
holds in every mode. -/
theorem malformed_arith_token_aborts :
    get_input_wire_map dummyRead none [["a", "abc"]] "u8" = none := by
  decide

/-- Claim C2 (amended): only boolean mode substitutes the default value
(false) for a malformed wire-value token and continues, never aborting;
in the arithmetic modes u8/u16/u32/u64/u128 a malformed token panics and
aborts the whole run. -/
theorem malformed_token_fallback :
    (∀ (r : String → String → List (String × PtxtType)) (wi : List (List String)),
        (∀ parts ∈ wi, 2 ≤ parts.length) →
        (get_input_wire_map r none wi "bool").isSome = true)
    ∧ (∀ name token : String, token ≠ "1" → rustParseBool token = none →
        parseEntry "bool" [name, token] = some (name, PtxtType.Bool false))
    ∧ (∀ name token : String, rustParseUInt (2 ^ 8 - 1) token = none →
        parseEntry "u8" [name, token] = none)
    ∧ (∀ name token : String, rustParseUInt (2 ^ 16 - 1) token = none →
        parseEntry "u16" [name, token] = none)
    ∧ (∀ name token : String, rustParseUInt (2 ^ 32 - 1) token = none →
        parseEntry "u32" [name, token] = none)
    ∧ (∀ name token : String, rustParseUInt (2 ^ 64 - 1) token = none →
        parseEntry "u64" [name, token] = none)
    ∧ (∀ name token : String, rustParseUInt (2 ^ 128 - 1) token = none →
        parseEntry "u128" [name, token] = none) := by
  refine ⟨?_, ?_, ?_, ?_, ?_, ?_, ?_⟩
  · intro r wi h
    cases wi with
    | nil => rfl
    | cons p rest =>
      rw [giwm_cons]
      have hsome : (mapEntries "bool" (p :: rest)).isSome = true := by
        apply mapEntries_isSome
        intro parts hp
        have h2 := h parts hp
        match parts, h2 with
        | a :: b :: rest2, _ => exact parseEntry_isSome "bool" a b rest2 rfl
      rw [Option.isSome_iff_exists] at hsome
      obtain ⟨es, hes⟩ := hsome
      simp [hes]
  · intro name token h1 hb
    rw [parseEntry_bool, if_neg h1, hb]
    rfl
  · intro name token h
    rw [parseEntry_u8, h]
    rfl
  · intro name token h
    rw [parseEntry_u16, h]
    rfl
  · intro name token h
    rw [parseEntry_u32, h]
    rfl
  · intro name token h
    rw [parseEntry_u64, h]
    rfl
  · intro name token h
    rw [parseEntry_u128, h]
    rfl

/-- Witness for `malformed_token_fallback`: the malformed token "xyz"
yields `Bool(false)` in boolean mode without aborting, while the same
token aborts the run in mode "u8". -/
theorem malformed_token_fallback_witness :
    (get_input_wire_map dummyRead none [["a", "xyz"]] "bool").isSome = true
    ∧ parseEntry "bool" ["a", "xyz"] = some ("a", PtxtType.Bool false)
    ∧ parseEntry "u8" ["a", "xyz"] = none :=
  ⟨malformed_token_fallback.1 dummyRead [["a", "xyz"]] (by decide),
   malformed_token_fallback.2.1 "a" "xyz" (by decide) (by decide),
   malformed_token_fallback.2.2.1 "a" "xyz" (by decide)⟩

/-- Claim C3 counterexample: `PtxtType`'s string parser takes no account
of the active arithmetic mode; the token "5" always parses to `U8 5`, so
in the u16 (or any wider) mode it does not produce the variant of the
selected width. -/
theorem fromStr_ignores_mode :
    PtxtType.fromStr "5" = .ok (.U8 5) ∧ PtxtType.fromStr "5" ≠ .ok (.U16 5) :=
  ⟨rfl, fun h => PtxtType.noConfusion (Except.ok.inj ((rfl :
    PtxtType.fromStr "5" = .ok (.U8 5)).symm.trans h))⟩

/-- Claim C3 (amended): in each arithmetic mode an explicit (name, value)
pair's token is parsed as an unsigned integer of exactly the selected
width, yielding the matching variant and faulting (rather than truncating
or widening) on any token that does not fit that width; `PtxtType`'s
string parser, by contrast, has no mode input and always returns the
narrowest-width variant that can represent the token. -/
theorem arith_width_exact :
    (∀ name token : String, ∀ v : Nat,
        (parseEntry "u8" [name, token] = some (name, PtxtType.U8 v) ↔
          rustParseUInt (2 ^ 8 - 1) token = some v)
        ∧ (parseEntry "u16" [name, token] = some (name, PtxtType.U16 v) ↔
          rustParseUInt (2 ^ 16 - 1) token = some v)
        ∧ (parseEntry "u32" [name, token] = some (name, PtxtType.U32 v) ↔
          rustParseUInt (2 ^ 32 - 1) token = some v)
        ∧ (parseEntry "u64" [name, token] = some (name, PtxtType.U64 v) ↔
          rustParseUInt (2 ^ 64 - 1) token = some v)
        ∧ (parseEntry "u128" [name, token] = some (name, PtxtType.U128 v) ↔
          rustParseUInt (2 ^ 128 - 1) token = some v))
    ∧ (∀ s : String, ∀ v : Nat, rustParseUInt (2 ^ 128 - 1) s = some v →
        PtxtType.fromStr s = .ok (narrowestWidthVariant v)) := by
  constructor
  · intro name token v
    refine ⟨?_, ?_, ?_, ?_, ?_⟩
    · rw [parseEntry_u8]
      cases hp : rustParseUInt (2 ^ 8 - 1) token <;> simp [hp]
    · rw [parseEntry_u16]
      cases hp : rustParseUInt (2 ^ 16 - 1) token <;> simp [hp]
    · rw [parseEntry_u32]
      cases hp : rustParseUInt (2 ^ 32 - 1) token <;> simp [hp]
    · rw [parseEntry_u64]
      cases hp : rustParseUInt (2 ^ 64 - 1) token <;> simp [hp]
    · rw [parseEntry_u128]
      cases hp : rustParseUInt (2 ^ 128 - 1) token <;> simp [hp]
  · exact fun s v h => fromStr_narrowest s v h

/-- Witness for `arith_width_exact`: in mode "u16" the token "300" parses
to `U16 300` exactly, and the mode-blind string parser sends "77" to the
narrowest variant. -/
theorem arith_width_exact_witness :
    (parseEntry "u16" ["a", "300"] = some ("a", PtxtType.U16 300) ↔
      rustParseUInt (2 ^ 16 - 1) "300" = some 300)
    ∧ PtxtType.fromStr "77" = .ok (narrowestWidthVariant 77) :=
  ⟨(arith_width_exact.1 "a" "300" 300).2.1,
   arith_width_exact.2 "77" 77 (by decide)⟩

/-- Claim C4: in boolean mode the value tokens "1" and "true" map to
`Bool(true)` and "0" and "false" map to `Bool(false)`, for every wire
entry of the explicit input list. -/
theorem bool_token_parsing (name : String)
    (r : String → String → List (String × PtxtType)) :
    parseEntry "bool" [name, "1"] = some (name, PtxtType.Bool true)
    ∧ parseEntry "bool" [name, "true"] = some (name, PtxtType.Bool true)
    ∧ parseEntry "bool" [name, "0"] = some (name, PtxtType.Bool false)
    ∧ parseEntry "bool" [name, "false"] = some (name, PtxtType.Bool false)
    ∧ get_input_wire_map r none [[name, "1"]] "bool"
        = some [(name, PtxtType.Bool true)] := by
  refine ⟨?_, ?_, ?_, ?_, ?_⟩
  · rw [parseEntry_bool, if_pos rfl]
  · rw [parseEntry_bool, if_neg (by decide)]
    rfl
  · rw [parseEntry_bool, if_neg (by decide)]
    rfl
  · rw [parseEntry_bool, if_neg (by decide)]
    rfl
  · rw [giwm_cons]
    have h1 : parseEntry "bool" [name, "1"] = some (name, PtxtType.Bool true) := by
      rw [parseEntry_bool, if_pos rfl]
    simp [mapEntries, h1, hmCollect, hmInsert]

/-- Claim C6: with no input-wires file and an empty explicit wire-input
list, `get_input_wire_map` returns the empty map without fault, in every
mode; every wire name is absent from that map, leaving each unspecified
primary input to the mode's default (false / 0) downstream. -/
theorem empty_input_wire_map (r : String → String → List (String × PtxtType))
    (t : String) :
    get_input_wire_map r none [] t = some []
    ∧ ∀ name : String, hmLookup name [] = none :=
  ⟨rfl, fun _ => rfl⟩

/-- Claim C5 counterexample: the cycles argument accepts the token "0";
the usize value parser imposes no positivity requirement, so a requested
cycle count of 0 is not rejected, contradicting "required > 0". -/
theorem cycles_zero_accepted : cyclesArgValue (some "0") = some 0 := by
  decide

/-- Claim C5 (amended): the cycles argument defaults to 1 when not
supplied; a supplied token is accepted whenever it parses as a usize,
including 0 — positivity is not enforced by the argument parser. -/
theorem cycles_default_one :
    cyclesArgValue none = some 1
    ∧ (∀ s : String, ∀ n : Nat, rustParseUInt (2 ^ 64 - 1) s = some n →
        cyclesArgValue (some s) = some n) := by
  constructor
  · decide
  · intro s n h
    exact h

/-- Witness for `cycles_default_one`: the token "7" is parsed as the
cycle count 7. -/
theorem cycles_default_one_witness :
    rustParseUInt (2 ^ 64 - 1) "7" = some 7
    ∧ cyclesArgValue (some "7") = some 7 :=
  ⟨by decide, cycles_default_one.2 "7" 7 (by decide)⟩

/-- Claim C7: decrypting the `None`/uninitialized ciphertext variant is a
fault (a panic) that aborts the run, while decrypt succeeds on every
non-`None` ciphertext. -/
theorem decrypt_none_faults (key : ClientKey) :
    FheType.decrypt .None key = none
    ∧ ∀ c : FheType, c ≠ .None → (c.decrypt key).isSome = true := by
  refine ⟨rfl, ?_⟩
  intro c hc
  cases c <;> first | rfl | exact absurd rfl hc

/-- Witness for `decrypt_none_faults`: the ciphertext `U8 0` is not the
`None` variant and decrypts successfully. -/
theorem decrypt_none_faults_witness :
    FheType.U8 0 ≠ FheType.None
    ∧ ((FheType.U8 0).decrypt ⟨⟩).isSome = true :=
  ⟨by decide, (decrypt_none_faults ⟨⟩).2 (FheType.U8 0) (by decide)⟩

/-! ## Lemmas about the association-list model of `HashMap` -/

theorem hmLookup_append (k : String) (xs ys : List (String × PtxtType)) :
    hmLookup k (xs ++ ys) =
      match hmLookup k xs with
      | some v => some v
      | none => hmLookup k ys := by
  induction xs with
  | nil => rfl
  | cons p rest ih =>
    by_cases hp : p.1 = k
    · simp [hmLookup, hp]
    · simp [hmLookup, hp, ih]

theorem hmLookup_filter_self (k : String) (m : List (String × PtxtType)) :
    hmLookup k (m.filter (fun p => p.1 ≠ k)) = none := by
  induction m with
  | nil => rfl
  | cons p rest ih =>
    rw [List.filter_cons]
    by_cases hp : p.1 = k
    · rw [if_neg (by simp [decide_eq_false (not_not_intro hp)])]
      exact ih
    · rw [if_pos (by simp [decide_eq_true hp])]
      simp only [hmLookup]
      rw [if_neg hp]
      exact ih

theorem hmLookup_filter_other (k k2 : String) (m : List (String × PtxtType))
    (h : k2 ≠ k) :
    hmLookup k2 (m.filter (fun p => p.1 ≠ k)) = hmLookup k2 m := by
  induction m with
  | nil => rfl
  | cons p rest ih =>
    rw [List.filter_cons]
    by_cases hp : p.1 = k
    · have hpk2 : ¬p.1 = k2 := by
        rw [hp]
        exact fun e => h e.symm
      rw [if_neg (by simp [decide_eq_false (not_not_intro hp)])]
      rw [ih]
      simp only [hmLookup]
      rw [if_neg hpk2]
    · rw [if_pos (by simp [decide_eq_true hp])]
      simp only [hmLookup]
      by_cases hpk2 : p.1 = k2
      · rw [if_pos hpk2, if_pos hpk2]
      · rw [if_neg hpk2, if_neg hpk2]
        exact ih

theorem hmLookup_insert (m : List (String × PtxtType)) (k k2 : String)
    (v : PtxtType) :
    hmLookup k2 (hmInsert m k v) = if k = k2 then some v else hmLookup k2 m := by
  unfold hmInsert
  rw [hmLookup_append]
  by_cases hk : k = k2
  · subst hk
    rw [hmLookup_filter_self]
    simp [hmLookup]
  · rw [hmLookup_filter_other k k2 m (fun e => hk e.symm)]
    cases h : hmLookup k2 m <;> simp [hmLookup, hk, h]

theorem hmLookup_foldl (k : String) (l : List (String × PtxtType)) :
    ∀ m : List (String × PtxtType),
      hmLookup k (l.foldl (fun m p => hmInsert m p.1 p.2) m) =
        match lastVal k l with
        | some v => some v
        | none => hmLookup k m := by
  induction l with
  | nil =>
    intro m
    rfl
  | cons p rest ih =>
    intro m
    rw [List.foldl_cons, ih (hmInsert m p.1 p.2)]
    cases hl : lastVal k rest with
    | some v => simp [lastVal, hl]
    | none =>
      rw [hmLookup_insert]
      by_cases hp : p.1 = k
      · simp [lastVal, hl, hp]
      · simp [lastVal, hl, hp]

theorem keys_nodup_insert (m : List (String × PtxtType)) (k : String)
    (v : PtxtType) (h : (m.map Prod.fst).Nodup) :
    ((hmInsert m k v).map Prod.fst).Nodup := by
  unfold hmInsert
  rw [List.map_append]
  apply List.Nodup.append
  · exact List.Nodup.sublist ((List.filter_sublist m).map Prod.fst) h
  · simp
  · intro a ha hb
    simp only [List.map_cons, List.map_nil, List.mem_singleton] at hb
    subst hb
    obtain ⟨p, hp, rfl⟩ := List.mem_map.1 ha
    have hf := List.of_mem_filter hp
    simp at hf

theorem keys_nodup_foldl (l : List (String × PtxtType)) :
    ∀ m, (m.map Prod.fst).Nodup →
      ((l.foldl (fun m p => hmInsert m p.1 p.2) m).map Prod.fst).Nodup := by
  induction l with
  | nil =>
    intro m h
    exact h
  | cons p rest ih =>
    intro m h
    rw [List.foldl_cons]
    exact ih _ (keys_nodup_insert m p.1 p.2 h)

/-- Claim C9: when the same wire name appears in several pairs of a
non-empty explicit input list, the collected map keeps exactly one entry
for that name, holding the value of the last such pair; in general the
map's keys are pairwise distinct. -/
theorem duplicate_wire_last_wins
    (r : String → String → List (String × PtxtType))
    (p0 : List String) (wi : List (List String)) (t : String)
    (pairs : List (String × PtxtType))
    (hp : mapEntries t (p0 :: wi) = some pairs) :
    get_input_wire_map r none (p0 :: wi) t = some (hmCollect pairs)
    ∧ ((hmCollect pairs).map Prod.fst).Nodup
    ∧ ∀ name, hmLookup name (hmCollect pairs) = lastVal name pairs := by
  refine ⟨?_, ?_, ?_⟩
  · rw [giwm_cons, hp]
    rfl
  · exact keys_nodup_foldl pairs [] (by simp)
  · intro name
    rw [show hmCollect pairs = pairs.foldl (fun m p => hmInsert m p.1 p.2) [] from rfl,
      hmLookup_foldl name pairs []]
    cases lastVal name pairs <;> rfl

/-- Witness for `duplicate_wire_last_wins`: the name "a" appears twice;
the collected map holds one entry for it, with the later value false. -/
theorem duplicate_wire_last_wins_witness :
    mapEntries "bool" [["a", "1"], ["a", "0"]] =
      some [("a", PtxtType.Bool true), ("a", PtxtType.Bool false)]
    ∧ (get_input_wire_map dummyRead none [["a", "1"], ["a", "0"]] "bool"
        = some (hmCollect [("a", PtxtType.Bool true), ("a", PtxtType.Bool false)])
      ∧ ((hmCollect [("a", PtxtType.Bool true), ("a", PtxtType.Bool false)]).map
          Prod.fst).Nodup
      ∧ ∀ name, hmLookup name
          (hmCollect [("a", PtxtType.Bool true), ("a", PtxtType.Bool false)])
          = lastVal name [("a", PtxtType.Bool true), ("a", PtxtType.Bool false)]) :=
  ⟨by decide,
   duplicate_wire_last_wins dummyRead ["a", "1"] [["a", "0"]] "bool"
     [("a", PtxtType.Bool true), ("a", PtxtType.Bool false)] (by decide)⟩

/-- Claim C10: with a non-empty explicit wire-input list,
`get_input_wire_map` is defined only for the mode strings "bool", "u8",
"u16", "u32", "u64", "u128": any other mode hits the match's
`unreachable!` branch and the call faults, while under the precondition
(a valid mode, entries of length ≥ 2 whose tokens parse at the mode's
width) the unreachable branch is never taken and the call succeeds. -/
theorem arith_type_domain (r : String → String → List (String × PtxtType))
    (p0 : List String) (wi : List (List String)) (t : String) :
    (validArithType t = false → get_input_wire_map r none (p0 :: wi) t = none)
    ∧ ((∀ parts ∈ p0 :: wi, ∃ name token rest2,
          parts = name :: token :: rest2 ∧ tokenOk t token = true) →
        (get_input_wire_map r none (p0 :: wi) t).isSome = true) := by
  constructor
  · intro hv
    rw [giwm_cons]
    have h0 : parseEntry t p0 = none := parseEntry_invalid t p0 hv
    simp [mapEntries, h0]
  · intro h
    rw [giwm_cons]
    have hsome : (mapEntries t (p0 :: wi)).isSome = true := by
      apply mapEntries_isSome
      intro parts hp
      obtain ⟨name, token, rest2, rfl, htok⟩ := h parts hp
      exact parseEntry_isSome t name token rest2 htok
    rw [Option.isSome_iff_exists] at hsome
    obtain ⟨es, hes⟩ := hsome
    simp [hes]

/-- Witness for `arith_type_domain`: the unknown mode string "foo" faults
on a one-entry list, while mode "u8" on the same list succeeds. -/
theorem arith_type_domain_witness :
    get_input_wire_map dummyRead none [["a", "1"]] "foo" = none
    ∧ (get_input_wire_map dummyRead none [["a", "1"]] "u8").isSome = true :=
  ⟨(arith_type_domain dummyRead ["a", "1"] [] "foo").1 (by decide),
   (arith_type_domain dummyRead ["a", "1"] [] "u8").2 (by
      intro parts hp
      rw [List.mem_singleton] at hp
      subst hp
      exact ⟨"a", "1", [], rfl, by decide⟩)⟩

/-! ## Homomorphic/plaintext simulation -/

theorem fheOp_sim (key : ClientKey) (op : GateOp) (c1 c2 : FheType)
    (p1 p2 : PtxtType) (h1 : c1.decrypt key = some p1)
    (h2 : c2.decrypt key = some p2) :
    match fheOp op c1 c2, ptxtOp op p1 p2 with
    | some c, some p => c.decrypt key = some p
    | none, none => True
    | _, _ => False := by
  cases c1 <;> cases c2 <;>
    simp only [FheType.decrypt, Option.some.injEq, reduceCtorEq] at h1 h2 <;>
    subst h1 <;> subst h2 <;>
    simp [fheOp, ptxtOp, FheType.decrypt]

theorem storeSim_update (key : ClientKey) (stF : String → Option FheType)
    (stP : String → Option PtxtType) (hsim : StoreSim key stF stP)
    (o : String) (c : FheType) (p : PtxtType) (hc : c.decrypt key = some p) :
    StoreSim key (fun n => if n = o then some c else stF n)
      (fun n => if n = o then some p else stP n) := by
  intro n
  by_cases hn : n = o
  · simp only [if_pos hn]
    exact hc
  · simp only [if_neg hn]
    exact hsim n

theorem evalSim (key : ClientKey) (gates : List Gate) :
    ∀ (stF : String → Option FheType) (stP : String → Option PtxtType),
      StoreSim key stF stP →
      match evalGatesF gates stF, evalGatesP gates stP with
      | some rF, some rP => StoreSim key rF rP
      | none, none => True
      | _, _ => False := by
  induction gates with
  | nil =>
    intro stF stP h
    exact h
  | cons g rest ih =>
    intro stF stP h
    have h1 := h g.in1
    have h2 := h g.in2
    cases hf1 : stF g.in1 with
    | none =>
      cases hp1 : stP g.in1 with
      | none => simp [evalGatesF, evalGatesP, hf1, hp1]
      | some p1 =>
        rw [hf1, hp1] at h1
        exact False.elim h1
    | some c1 =>
      cases hp1 : stP g.in1 with
      | none =>
        rw [hf1, hp1] at h1
        exact False.elim h1
      | some p1 =>
        rw [hf1, hp1] at h1
        cases hf2 : stF g.in2 with
        | none =>
          cases hp2 : stP g.in2 with
          | none => simp [evalGatesF, evalGatesP, hf1, hp1, hf2, hp2]
          | some p2 =>
            rw [hf2, hp2] at h2
            exact False.elim h2
        | some c2 =>
          cases hp2 : stP g.in2 with
          | none =>
            rw [hf2, hp2] at h2
            exact False.elim h2
          | some p2 =>
            rw [hf2, hp2] at h2
            have hop := fheOp_sim key g.op c1 c2 p1 p2 h1 h2
            cases ho1 : fheOp g.op c1 c2 with
            | none =>
              cases ho2 : ptxtOp g.op p1 p2 with
              | none =>
                simp [evalGatesF, evalGatesP, hf1, hp1, hf2, hp2, ho1, ho2]
              | some p =>
                rw [ho1, ho2] at hop
                exact False.elim hop
            | some c =>
              cases ho2 : ptxtOp g.op p1 p2 with
              | none =>
                rw [ho1, ho2] at hop
                exact False.elim hop
              | some p =>
                rw [ho1, ho2] at hop
                have hrec := ih (fun n => if n = g.out then some c else stF n)
                  (fun n => if n = g.out then some p else stP n)
                  (storeSim_update key stF stP h g.out c p hop)
                simpa [evalGatesF, evalGatesP, hf1, hp1, hf2, hp2, ho1, ho2]
                  using hrec

theorem encrypt_decrypt (key : ClientKey) (p : PtxtType)
    (h : ptxtIsArith p = true) :
    (encrypt key p).bind (fun c => c.decrypt key) = some p := by
  cases p <;> simp_all [encrypt, FheType.decrypt, ptxtIsArith]

theorem storeSim_init (key : ClientKey) (inputs : String → Option PtxtType)
    (h : ∀ n p, inputs n = some p → ptxtIsArith p = true) :
    StoreSim key (encryptStore key inputs) inputs := by
  intro n
  cases hi : inputs n with
  | none => simp [encryptStore, hi]
  | some p =>
    have hrt := encrypt_decrypt key p (h n p hi)
    cases he : encrypt key p with
    | none =>
      rw [he] at hrt
      exact Option.noConfusion hrt
    | some c =>
      rw [he] at hrt
      have he2 : encryptStore key inputs n = some c := by
        simp [encryptStore, hi, he]
      rw [he2]
      exact hrt

/-- Claim C1: spec-modelled round-trip correctness.  Evaluating a circuit
homomorphically on encrypted inputs and decrypting gives exactly the
plaintext ("shadow") evaluation on the original inputs: the two
evaluations succeed or fault together, every output wire decrypts to its
plaintext counterpart, and `FheType::decrypt` maps each encrypted width
variant (U8/U16/U32/U64/U128) back to the `PtxtType` variant of the same
width holding the originally encrypted value. -/
theorem roundtrip_correct (key : ClientKey) (gates : List Gate)
    (inputs : String → Option PtxtType)
    (h : ∀ n p, inputs n = some p → ptxtIsArith p = true) :
    ((evalGatesF gates (encryptStore key inputs)).isSome =
        (evalGatesP gates inputs).isSome)
    ∧ (∀ rF rP, evalGatesF gates (encryptStore key inputs) = some rF →
        evalGatesP gates inputs = some rP →
        ∀ n, (rF n).bind (fun c => c.decrypt key) = rP n)
    ∧ (∀ v : Nat,
        (FheType.U8 v).decrypt key = some (PtxtType.U8 v)
        ∧ (FheType.U16 v).decrypt key = some (PtxtType.U16 v)
        ∧ (FheType.U32 v).decrypt key = some (PtxtType.U32 v)
        ∧ (FheType.U64 v).decrypt key = some (PtxtType.U64 v)
        ∧ (FheType.U128 v).decrypt key = some (PtxtType.U128 v)
        ∧ (encrypt key (PtxtType.U8 v)).bind (fun c => c.decrypt key)
            = some (PtxtType.U8 v)
        ∧ (encrypt key (PtxtType.U16 v)).bind (fun c => c.decrypt key)
            = some (PtxtType.U16 v)
        ∧ (encrypt key (PtxtType.U32 v)).bind (fun c => c.decrypt key)
            = some (PtxtType.U32 v)
        ∧ (encrypt key (PtxtType.U64 v)).bind (fun c => c.decrypt key)
            = some (PtxtType.U64 v)
        ∧ (encrypt key (PtxtType.U128 v)).bind (fun c => c.decrypt key)
            = some (PtxtType.U128 v)) := by
  have hsim := evalSim key gates (encryptStore key inputs) inputs
    (storeSim_init key inputs h)
  refine ⟨?_, ?_, ?_⟩
  · cases hF : evalGatesF gates (encryptStore key inputs) <;>
      cases hP : evalGatesP gates inputs <;>
      rw [hF, hP] at hsim <;>
      first
        | rfl
        | exact False.elim hsim
  · intro rF rP hF hP n
    rw [hF, hP] at hsim
    have hsim2 : StoreSim key rF rP := hsim
    have hn := hsim2 n
    cases hrF : rF n with
    | none =>
      cases hrP : rP n with
      | none => rfl
      | some p =>
        rw [hrF, hrP] at hn
        exact False.elim hn
    | some c =>
      cases hrP : rP n with
      | none =>
        rw [hrF, hrP] at hn
        exact False.elim hn
      | some p =>
        rw [hrF, hrP] at hn
        simpa using hn
  · intro v
    exact ⟨rfl, rfl, rfl, rfl, rfl, rfl, rfl, rfl, rfl, rfl⟩

theorem exInputs_arith : ∀ n p, exInputs n = some p → ptxtIsArith p = true := by
  intro n p hp
  unfold exInputs at hp
  split_ifs at hp <;> injection hp with hp2 <;> subst hp2 <;> rfl

/-- Witness for `roundtrip_correct`: the one-gate 8-bit adder with inputs
200 and 100 (spec §8, scenario 3); both evaluations succeed, and the
plaintext one is checked to compute. -/
theorem roundtrip_correct_witness :
    ((evalGatesF exGates (encryptStore ⟨⟩ exInputs)).isSome =
      (evalGatesP exGates exInputs).isSome)
    ∧ (evalGatesP exGates exInputs).isSome = true :=
  ⟨(roundtrip_correct ⟨⟩ exGates exInputs exInputs_arith).1, by decide⟩

end Helm
